import Mathlib

/-!
# Predis — coin-ledger and market-resolution core, shallow embedding

A shallow embedding of the betting/resolution core of the Predis prediction
app.  The data model follows `prisma/schema.prisma` (User, Prediction,
PredictionOption, Bet, Transaction and their enums); the operations
`placeBet`, `resolve` and `cancel` follow the transaction pseudocode in
`docs/FEATURES_AND_FLOWS.md` (§4.1 place a bet, §5.1 resolve, §3.x cancel
refund logic).  JavaScript numbers are modelled as exact arithmetic: coin
amounts are `Nat`/`Int`, odds are `ℚ`, and `Math.floor` on a non-negative
quantity is `⌊·⌋₊ : ℚ → ℕ`.
-/

namespace Predis

/-- `PredictionStatus` enum from the Prisma schema. -/
inductive PredictionStatus where
  | DRAFT
  | ACTIVE
  | LOCKED
  | RESOLVED
  | CANCELLED
  | DISPUTED
deriving DecidableEq

/-- `BetStatus` enum from the Prisma schema. -/
inductive BetStatus where
  | PENDING
  | WON
  | LOST
  | REFUNDED
deriving DecidableEq

/-- `TransactionType` enum from the Prisma schema. -/
inductive TransactionType where
  | INITIAL_BALANCE
  | BET_PLACED
  | BET_WON
  | BET_REFUNDED
  | DAILY_BONUS
  | ACHIEVEMENT
  | CREATOR_REWARD
  | ADMIN_ADJUSTMENT
deriving DecidableEq

/-- `User` model (the fields the betting core touches).  `coinBalance` is an
`Int` so that "balance never negative" is a statement, not a typing artifact. -/
structure User where
  id : Nat
  coinBalance : Int
  totalBets : Nat := 0
  totalWins : Nat := 0
  totalLosses : Nat := 0
deriving DecidableEq

/-- `Prediction` model (a market). -/
structure Prediction where
  id : Nat
  creatorId : Nat
  status : PredictionStatus
  totalPool : Nat := 0
  totalBets : Nat := 0
  correctOptionId : Option Nat := none
deriving DecidableEq

/-- `PredictionOption` model (one outcome of a market). -/
structure PredictionOption where
  id : Nat
  predictionId : Nat
  totalBets : Nat := 0
  totalCoins : Nat := 0
  currentOdds : ℚ := 1
deriving DecidableEq

/-- `Bet` model (a wager). -/
structure Bet where
  id : Nat
  userId : Nat
  predictionId : Nat
  optionId : Nat
  amount : Nat
  oddsAtBet : ℚ
  status : BetStatus := .PENDING
  payout : Nat := 0
deriving DecidableEq

/-- `Transaction` model (a ledger entry).  The schema declares
`balanceBefore`/`balanceAfter` as required `Int` columns, but the resolve and
cancel flows create entries without supplying them, so they are modelled as
`Option Int` (`none` where the creating code omits the field). -/
structure Transaction where
  userId : Nat
  type : TransactionType
  amount : Int
  balanceBefore : Option Int := none
  balanceAfter : Option Int := none
  betId : Option Nat := none
deriving DecidableEq

/-- The persistent state: one row list per table, plus a fresh-id counter for
bets (the schema's `cuid()` primary keys, abstracted to `Nat`). -/
structure St where
  users : List User
  predictions : List Prediction
  options : List PredictionOption
  bets : List Bet
  transactions : List Transaction
  nextBetId : Nat
deriving DecidableEq

/-- A `prisma.X.update({ where: cond, data: f })` row update: apply `f` to
every row satisfying `cond`. -/
def updateWhere {α : Type} (cond : α → Bool) (f : α → α) (l : List α) : List α :=
  l.map fun x => if cond x then f x else x

/-- Modelled from the spec: `calculateOdds` of `betting.service.ts` is not
among the repository sources (only its unit tests are).  The spec defines it
as the pure function `odds = pool / coinsOnOption` when `coinsOnOption > 0`,
else the defined floor value `1.0`. -/
def calculateOdds (pool coinsOnOption : Nat) : ℚ :=
  if 0 < coinsOnOption then (pool : ℚ) / (coinsOnOption : ℚ) else 1

/-- Winner payout from the resolve flow:
`Math.floor(bet.amount * oddsForWinners)` with
`oddsForWinners = prediction.totalPool / correctOption.totalCoins`,
expressed as natural-number division (see `payoutOf_eq_floor`). -/
def payoutOf (amount pool coins : Nat) : Nat :=
  amount * pool / coins

/-- Creator reward from the resolve flow:
`Math.floor(prediction.totalPool * 0.05)` (the "5% fee"). -/
def creatorRewardOf (pool : Nat) : Nat :=
  pool * 5 / 100

/-- Error taxonomy surfaced by the betting core flows. -/
inductive BetError where
  | NotFound
  | InsufficientFunds
  | PredictionNotActive
  | InvalidAmount
deriving DecidableEq

/-- `placeBet` — §4.1 of FEATURES_AND_FLOWS.  Validations (step 7): user has
sufficient balance, prediction still active, amount > 0; then one atomic
transaction (step 8): debit user, create bet, bump prediction pool and option
totals, recalculate odds, record a `BET_PLACED` ledger entry with
`balanceBefore`/`balanceAfter`. -/
def placeBet (st : St) (userId predictionId optionId amount : Nat) :
    Except BetError St :=
  match st.users.find? (fun u => u.id == userId) with
  | none => .error .NotFound
  | some user =>
    match st.predictions.find? (fun p => p.id == predictionId) with
    | none => .error .NotFound
    | some pred =>
      match st.options.find?
          (fun o => o.id == optionId && o.predictionId == predictionId) with
      | none => .error .NotFound
      | some opt =>
        if user.coinBalance < (amount : Int) then .error .InsufficientFunds
        else if pred.status ≠ .ACTIVE then .error .PredictionNotActive
        else if amount = 0 then .error .InvalidAmount
        else
          let betId := st.nextBetId
          let newPool := pred.totalPool + amount
          .ok
            { st with
              users :=
                updateWhere (fun u => u.id == userId)
                  (fun u =>
                    { u with
                      coinBalance := u.coinBalance - (amount : Int)
                      totalBets := u.totalBets + 1 }) st.users
              bets :=
                st.bets ++
                  [{ id := betId, userId := userId,
                     predictionId := predictionId, optionId := optionId,
                     amount := amount, oddsAtBet := opt.currentOdds }]
              predictions :=
                updateWhere (fun p => p.id == predictionId)
                  (fun p =>
                    { p with
                      totalPool := p.totalPool + amount
                      totalBets := p.totalBets + 1 }) st.predictions
              options :=
                (updateWhere (fun o => o.id == optionId)
                      (fun o =>
                        { o with
                          totalCoins := o.totalCoins + amount
                          totalBets := o.totalBets + 1 }) st.options).map
                  (fun o =>
                    if o.predictionId == predictionId then
                      { o with currentOdds := calculateOdds newPool o.totalCoins }
                    else o)
              transactions :=
                st.transactions ++
                  [{ userId := userId, type := .BET_PLACED,
                     amount := -(amount : Int),
                     balanceBefore := some user.coinBalance,
                     balanceAfter := some (user.coinBalance - (amount : Int)),
                     betId := some betId }]
              nextBetId := betId + 1 }

/-- The `BET_WON` ledger entry created by the resolve flow — note it carries
no `balanceBefore`/`balanceAfter`. -/
def mkWonTxn (b : Bet) (payout : Nat) : Transaction :=
  { userId := b.userId, type := .BET_WON, amount := (payout : Int),
    betId := some b.id }

/-- Body of the `resolve` transaction of §5.1 of FEATURES_AND_FLOWS, after
the two row lookups.  Faithful to the pseudocode: the market is marked
`RESOLVED` with no guard on its previous status; winners are credited
`Math.floor(bet.amount * oddsForWinners)` computed from the final pool and
winning-option totals; losers are marked `LOST`; finally the creator is
credited `Math.floor(totalPool * 0.05)` with no ledger entry. -/
def resolveBody (st : St) (predictionId correctOptionId : Nat)
    (pred : Prediction) (correctOption : PredictionOption) : St :=
      let st1 : St :=
        { st with
          predictions :=
            updateWhere (fun p => p.id == predictionId)
              (fun p =>
                { p with
                  status := .RESOLVED
                  correctOptionId := some correctOptionId }) st.predictions }
      let allBets := st.bets.filter (fun b => b.predictionId == predictionId)
      let winningBets := allBets.filter (fun b => b.optionId == correctOptionId)
      let losingBets := allBets.filter (fun b => !(b.optionId == correctOptionId))
      let st2 : St :=
        winningBets.foldl
          (fun acc b =>
            let payout := payoutOf b.amount pred.totalPool correctOption.totalCoins
            { acc with
              users :=
                updateWhere (fun u => u.id == b.userId)
                  (fun u =>
                    { u with
                      coinBalance := u.coinBalance + (payout : Int)
                      totalWins := u.totalWins + 1 }) acc.users
              bets :=
                updateWhere (fun bb => bb.id == b.id)
                  (fun bb => { bb with status := .WON, payout := payout })
                  acc.bets
              transactions := acc.transactions ++ [mkWonTxn b payout] })
          st1
      let st3 : St :=
        losingBets.foldl
          (fun acc b =>
            { acc with
              users :=
                updateWhere (fun u => u.id == b.userId)
                  (fun u => { u with totalLosses := u.totalLosses + 1 }) acc.users
              bets :=
                updateWhere (fun bb => bb.id == b.id)
                  (fun bb => { bb with status := .LOST }) acc.bets })
          st2
      { st3 with
        users :=
          updateWhere (fun u => u.id == pred.creatorId)
            (fun u =>
              { u with
                coinBalance :=
                  u.coinBalance + (creatorRewardOf pred.totalPool : Int) })
            st3.users }

/-- `resolve` — §5.1 of FEATURES_AND_FLOWS: look up the market and the
declared correct option, then run the resolution transaction
(`resolveBody`). -/
def resolve (st : St) (predictionId correctOptionId : Nat) :
    Except BetError St :=
  match st.predictions.find? (fun p => p.id == predictionId) with
  | none => .error .NotFound
  | some pred =>
    match st.options.find? (fun o => o.id == correctOptionId) with
    | none => .error .NotFound
    | some correctOption =>
      .ok (resolveBody st predictionId correctOptionId pred correctOption)

/-- Body of the refund logic of FEATURES_AND_FLOWS §3 (cancel prediction):
every bet on the prediction is credited back in full, marked `REFUNDED`, and
a `BET_REFUNDED` ledger entry (again without balance fields) is written;
finally the prediction is marked `CANCELLED`. -/
def cancelBody (st : St) (predictionId : Nat) : St :=
    let predBets := st.bets.filter (fun b => b.predictionId == predictionId)
    let st1 : St :=
      predBets.foldl
        (fun acc b =>
          { acc with
            users :=
              updateWhere (fun u => u.id == b.userId)
                (fun u =>
                  { u with coinBalance := u.coinBalance + (b.amount : Int) })
                acc.users
            bets :=
              updateWhere (fun bb => bb.id == b.id)
                (fun bb => { bb with status := .REFUNDED }) acc.bets
            transactions :=
              acc.transactions ++
                [{ userId := b.userId, type := .BET_REFUNDED,
                   amount := (b.amount : Int), betId := some b.id }] })
        st
    { st1 with
      predictions :=
        updateWhere (fun p => p.id == predictionId)
          (fun p => { p with status := .CANCELLED }) st1.predictions }

/-- `cancel`: look up the prediction, then run the refund transaction. -/
def cancel (st : St) (predictionId : Nat) : Except BetError St :=
  match st.predictions.find? (fun p => p.id == predictionId) with
  | none => .error .NotFound
  | some _ => .ok (cancelBody st predictionId)

/-- One core operation, for reasoning about arbitrary call sequences. -/
inductive Op where
  | place (userId predictionId optionId amount : Nat)
  | resolveMarket (predictionId correctOptionId : Nat)
  | cancelMarket (predictionId : Nat)

/-- Run one operation; a failed operation leaves the state untouched (every
flow runs in a single aborting transaction). -/
def step (st : St) : Op → St
  | .place u p o a =>
    match placeBet st u p o a with
    | .ok st2 => st2
    | .error _ => st
  | .resolveMarket p o =>
    match resolve st p o with
    | .ok st2 => st2
    | .error _ => st
  | .cancelMarket p =>
    match cancel st p with
    | .ok st2 => st2
    | .error _ => st

/-- Run a sequence of operations. -/
def run (st : St) (ops : List Op) : St :=
  ops.foldl step st

/-- Schema-violation outcome for a rejected row insert. -/
inductive SchemaViolation where
  | UniqueViolation
deriving DecidableEq

/-- `Transaction.betId` is declared `@unique` in the Prisma schema: an insert
whose (non-null) `betId` already appears on an existing row is rejected. -/
def insertTransaction (txns : List Transaction) (t : Transaction) :
    Except SchemaViolation (List Transaction) :=
  match t.betId with
  | none => .ok (txns ++ [t])
  | some bid =>
    if txns.all (fun t0 => !(t0.betId == some bid)) then .ok (txns ++ [t])
    else .error .UniqueViolation

/-- At most one ledger entry references any given bet. -/
def atMostOnePerBet (txns : List Transaction) : Prop :=
  ∀ bid : Nat, (txns.filter (fun t => t.betId == some bid)).length ≤ 1

deriving instance DecidableEq for Except

/-- Concrete market used to exercise the resolve flow: creator `2`, one
option carrying the whole pool of `100`, one pending wager of `100` by
user `1`; the market is `LOCKED` awaiting resolution. -/
def demoSt : St :=
  { users := [{ id := 1, coinBalance := 0 }, { id := 2, coinBalance := 0 }]
    predictions :=
      [{ id := 1, creatorId := 2, status := .LOCKED, totalPool := 100,
         totalBets := 1 }]
    options := [{ id := 1, predictionId := 1, totalBets := 1, totalCoins := 100 }]
    bets := [{ id := 1, userId := 1, predictionId := 1, optionId := 1,
               amount := 100, oddsAtBet := 1 }]
    transactions := []
    nextBetId := 2 }

/-- `demoSt` after one resolution declaring option `1` correct. -/
def demoR1 : St :=
  match resolve demoSt 1 1 with
  | .ok s => s
  | .error _ => demoSt

/-- `demoR1` after a second resolution call with the same arguments. -/
def demoR2 : St :=
  match resolve demoR1 1 1 with
  | .ok s => s
  | .error _ => demoR1

/-- Concrete state for the insufficient-funds scenario: one account with
balance `500`, one active two-option market with an empty pool. -/
def demoActive : St :=
  { users := [{ id := 1, coinBalance := 500 }]
    predictions := [{ id := 1, creatorId := 2, status := .ACTIVE }]
    options := [{ id := 1, predictionId := 1 }, { id := 2, predictionId := 1 }]
    bets := []
    transactions := []
    nextBetId := 1 }

/-- Like `demoActive` but the creator (user `2`, balance `50`) is also an
account, so the creator-reward credit is observable. -/
def demoWithCreator : St :=
  { users := [{ id := 1, coinBalance := 500 }, { id := 2, coinBalance := 50 }]
    predictions := [{ id := 1, creatorId := 2, status := .ACTIVE }]
    options := [{ id := 1, predictionId := 1 }, { id := 2, predictionId := 1 }]
    bets := []
    transactions := []
    nextBetId := 1 }

/-- `demoWithCreator` after one wager of `100` on option `1` and a
resolution declaring option `1` correct. -/
def demoFlow : St :=
  run demoWithCreator [.place 1 1 1 100, .resolveMarket 1 1]

/-- The ledger entry `placeBet` writes for a wager of `100` at balance
`500`. -/
def demoTxn1 : Transaction :=
  { userId := 1, type := .BET_PLACED, amount := -100,
    balanceBefore := some 500, balanceAfter := some 400, betId := some 1 }

/-- A payout entry that references the same bet as `demoTxn1`. -/
def demoTxn2 : Transaction :=
  { userId := 1, type := .BET_WON, amount := 400, betId := some 1 }

/-- Per-element effect of one resolution on a bet row: winning bets (same
market, correct option) become `WON` with the floored payout, other bets of
the market become `LOST`, bets of other markets are untouched. -/
def resolveBetMap (predictionId correctOptionId pool coins : Nat) (b : Bet) :
    Bet :=
  if b.predictionId == predictionId then
    if b.optionId == correctOptionId then
      { b with status := .WON, payout := payoutOf b.amount pool coins }
    else { b with status := .LOST }
  else b

/-- Per-element form of a sequence of by-id row updates: fold the update
list over a single row, firing on id match. -/
def applyHits (upd : Bet → Bet → Bet) (ws : List Bet) (x : Bet) : Bet :=
  ws.foldl (fun y w => if y.id == w.id then upd w y else y) x

/-- Total coins on the options of one market. -/
def poolOf (predictionId : Nat) (opts : List PredictionOption) : Nat :=
  ((opts.filter (fun o => o.predictionId == predictionId)).map
    (fun o => o.totalCoins)).sum

/-- Every account balance is non-negative. -/
def balancesNonneg (st : St) : Prop :=
  ∀ u ∈ st.users, 0 ≤ u.coinBalance

/-- Pool consistency: for every market, the coins on its options sum to its
pool. -/
def poolConsistent (st : St) : Prop :=
  ∀ p ∈ st.predictions, poolOf p.id st.options = p.totalPool

end Predis

namespace Predis

theorem foldl_preserves {α β : Type} {P : α → Prop} {f : α → β → α}
    (h : ∀ acc w, P acc → P (f acc w)) :
    ∀ (ws : List β) (acc : α), P acc → P (ws.foldl f acc)
  | [], _, hP => hP
  | w :: ws, acc, hP => foldl_preserves h ws (f acc w) (h acc w hP)

theorem foldl_component {α β γ : Type} (F : α → β → α) (proj : α → γ)
    (G : γ → β → γ) (h : ∀ acc w, proj (F acc w) = G (proj acc) w) :
    ∀ (ws : List β) (acc : α), proj (ws.foldl F acc) = ws.foldl G (proj acc)
  | [], _ => rfl
  | w :: ws, acc => by
      rw [List.foldl_cons, List.foldl_cons,
        foldl_component F proj G h ws (F acc w), h]

theorem foldl_updateWhere_eq_map {α β : Type} (q : β → α → Bool)
    (g : β → α → α) :
    ∀ (ws : List β) (l : List α),
      ws.foldl (fun acc w => updateWhere (q w) (g w) acc) l =
        l.map (fun x => ws.foldl (fun y w => if q w y then g w y else y) x)
  | [], l => by simp [List.map_id']
  | w :: ws, l => by
      rw [List.foldl_cons,
        foldl_updateWhere_eq_map q g ws (updateWhere (q w) (g w) l),
        updateWhere, List.map_map]
      rfl

theorem updateWhere_map_proj {α γ : Type} (cond : α → Bool) (f : α → α)
    (g : α → γ) (hg : ∀ x, g (f x) = g x) (l : List α) :
    (updateWhere cond f l).map g = l.map g := by
  unfold updateWhere
  rw [List.map_map]
  refine List.map_congr_left ?_
  intro x _
  by_cases h : cond x <;> simp [h, hg]

theorem updateWhere_eq_self {α : Type} (cond : α → Bool) (f : α → α)
    (l : List α) (h : ∀ x ∈ l, cond x = false) : updateWhere cond f l = l := by
  unfold updateWhere
  rw [show l.map (fun x => if cond x then f x else x) = l.map id from ?_,
    List.map_id]
  refine List.map_congr_left ?_
  intro x hx
  simp [h x hx]

theorem find_eq_of_mem {α : Type} (f : α → Nat) (k : Nat) {l : List α}
    {x0 : α} (hn : (l.map f).Nodup)
    (hf : l.find? (fun x => f x == k) = some x0)
    {x : α} (hx : x ∈ l) (hfx : f x = k) : x = x0 := by
  have h0 : x0 ∈ l := List.mem_of_find?_eq_some hf
  have h1 : f x0 = k := by simpa using List.find?_some hf
  exact List.inj_on_of_nodup_map hn hx h0 (by rw [hfx, h1])

theorem applyHits_miss (upd : Bet → Bet → Bet) :
    ∀ (ws : List Bet) (x : Bet), (∀ w ∈ ws, w.id ≠ x.id) →
      applyHits upd ws x = x
  | [], _, _ => rfl
  | w :: ws, x, h => by
      unfold applyHits
      rw [List.foldl_cons]
      have hw : (x.id == w.id) = false := by
        simp only [beq_eq_false_iff_ne, ne_eq]
        exact fun e => h w (by simp) e.symm
      rw [if_neg (by simp [hw])]
      exact applyHits_miss upd ws x (fun w' hw' => h w' (by simp [hw']))

theorem applyHits_hit (upd : Bet → Bet → Bet)
    (hid : ∀ w y, (upd w y).id = y.id) :
    ∀ (ws : List Bet) (x : Bet), (ws.map Bet.id).Nodup → x ∈ ws →
      (∀ w ∈ ws, w.id = x.id → w = x) → applyHits upd ws x = upd x x
  | w :: ws, x, hn, hx, hwx => by
      by_cases hxw : x = w
      · subst hxw
        unfold applyHits
        rw [List.foldl_cons, if_pos (by simp)]
        refine applyHits_miss upd ws (upd x x) ?_
        intro w' hw' he
        rw [hid x x] at he
        have hx' : w' = x := hwx w' (by simp [hw']) he
        subst hx'
        have : w'.id ∈ ws.map Bet.id := List.mem_map_of_mem Bet.id hw'
        simp only [List.map_cons, List.nodup_cons] at hn
        exact hn.1 this
      · have hwid : w.id ≠ x.id := fun e => hxw ((hwx w (by simp) e).symm)
        have hx' : x ∈ ws := by
          rcases List.mem_cons.mp hx with h | h
          · exact absurd h hxw
          · exact h
        unfold applyHits
        rw [List.foldl_cons,
          if_neg (by simp only [beq_iff_eq]
                     exact fun (e : x.id = w.id) => hwid e.symm)]
        exact applyHits_hit upd hid ws x
          (by simp only [List.map_cons, List.nodup_cons] at hn; exact hn.2)
          hx' (fun w' hw' he => hwx w' (by simp [hw']) he)

end Predis

namespace Predis

theorem resolveBody_options (st : St) (pid oid : Nat) (pred : Prediction)
    (opt : PredictionOption) :
    (resolveBody st pid oid pred opt).options = st.options := by
  simp only [resolveBody]
  refine foldl_preserves (P := fun s : St => s.options = st.options) ?_ _ _ ?_
  · intro acc w h
    exact h
  refine foldl_preserves (P := fun s : St => s.options = st.options) ?_ _ _ rfl
  intro acc w h
  exact h

theorem resolveBody_predictions (st : St) (pid oid : Nat) (pred : Prediction)
    (opt : PredictionOption) :
    (resolveBody st pid oid pred opt).predictions =
      updateWhere (fun p => p.id == pid)
        (fun p => { p with status := .RESOLVED, correctOptionId := some oid })
        st.predictions := by
  simp only [resolveBody]
  refine foldl_preserves
    (P := fun s : St => s.predictions = updateWhere (fun p => p.id == pid)
      (fun p => { p with status := .RESOLVED, correctOptionId := some oid })
      st.predictions) ?_ _ _ ?_
  · intro acc w h
    exact h
  refine foldl_preserves
    (P := fun s : St => s.predictions = updateWhere (fun p => p.id == pid)
      (fun p => { p with status := .RESOLVED, correctOptionId := some oid })
      st.predictions) ?_ _ _ rfl
  intro acc w h
  exact h

theorem resolveBody_bets (st : St) (pid oid : Nat) (pred : Prediction)
    (opt : PredictionOption) (hn : (st.bets.map Bet.id).Nodup) :
    (resolveBody st pid oid pred opt).bets =
      st.bets.map (resolveBetMap pid oid pred.totalPool opt.totalCoins) := by
  have hinj := List.inj_on_of_nodup_map hn
  simp only [resolveBody]
  rw [foldl_component _ St.bets
      (fun bl (w : Bet) => updateWhere (fun bb => bb.id == w.id)
        (fun bb => { bb with status := BetStatus.LOST }) bl)
      (fun acc w => rfl)]
  rw [foldl_component _ St.bets
      (fun bl (w : Bet) => updateWhere (fun bb => bb.id == w.id)
        (fun bb =>
          { bb with
              status := BetStatus.WON,
              payout := payoutOf w.amount pred.totalPool opt.totalCoins }) bl)
      (fun acc w => rfl)]
  rw [foldl_updateWhere_eq_map, foldl_updateWhere_eq_map, List.map_map]
  refine List.map_congr_left ?_
  intro x hx0
  have hx : x ∈ st.bets := hx0
  have hWsub : List.Sublist
      ((st.bets.filter (fun b => b.predictionId == pid)).filter
        (fun b => b.optionId == oid)) st.bets :=
    (List.filter_sublist _).trans (List.filter_sublist _)
  have hLsub : List.Sublist
      ((st.bets.filter (fun b => b.predictionId == pid)).filter
        (fun b => !(b.optionId == oid))) st.bets :=
    (List.filter_sublist _).trans (List.filter_sublist _)
  show applyHits
      (fun _ bb => { bb with status := BetStatus.LOST })
      ((st.bets.filter (fun b => b.predictionId == pid)).filter
        (fun b => !(b.optionId == oid)))
      (applyHits
        (fun w bb =>
          { bb with
              status := BetStatus.WON,
              payout := payoutOf w.amount pred.totalPool opt.totalCoins })
        ((st.bets.filter (fun b => b.predictionId == pid)).filter
          (fun b => b.optionId == oid)) x) =
    resolveBetMap pid oid pred.totalPool opt.totalCoins x
  by_cases hp : x.predictionId = pid
  · by_cases ho : x.optionId = oid
    · have hxW : x ∈ (st.bets.filter (fun b => b.predictionId == pid)).filter
          (fun b => b.optionId == oid) := by
        simp [List.mem_filter, hx, hp, ho]
      have hW : applyHits
          (fun w bb =>
            { bb with
                status := BetStatus.WON,
                payout := payoutOf w.amount pred.totalPool opt.totalCoins })
          ((st.bets.filter (fun b => b.predictionId == pid)).filter
            (fun b => b.optionId == oid)) x =
          { x with
              status := BetStatus.WON,
              payout := payoutOf x.amount pred.totalPool opt.totalCoins } :=
        applyHits_hit
          (fun w bb =>
            { bb with
                status := BetStatus.WON,
                payout := payoutOf w.amount pred.totalPool opt.totalCoins })
          (fun w y => rfl) _ x
          (hn.sublist (hWsub.map Bet.id)) hxW
          (fun w hw he => hinj (hWsub.subset hw) hx he)
      rw [hW]
      have hLmiss : applyHits
          (fun _ bb => { bb with status := BetStatus.LOST })
          ((st.bets.filter (fun b => b.predictionId == pid)).filter
            (fun b => !(b.optionId == oid)))
          { x with
              status := BetStatus.WON,
              payout := payoutOf x.amount pred.totalPool opt.totalCoins } =
          { x with
              status := BetStatus.WON,
              payout := payoutOf x.amount pred.totalPool opt.totalCoins } := by
        refine applyHits_miss _ _ _ ?_
        intro w hw he
        have hwx : w = x := hinj (hLsub.subset hw) hx he
        subst hwx
        rcases List.mem_filter.mp hw with ⟨_, hwo⟩
        simp [ho] at hwo
      rw [hLmiss]
      simp [resolveBetMap, hp, ho]
    · have hxL : x ∈ (st.bets.filter (fun b => b.predictionId == pid)).filter
          (fun b => !(b.optionId == oid)) := by
        simp [List.mem_filter, hx, hp, ho]
      have hWmiss : applyHits
          (fun w bb =>
            { bb with
                status := BetStatus.WON,
                payout := payoutOf w.amount pred.totalPool opt.totalCoins })
          ((st.bets.filter (fun b => b.predictionId == pid)).filter
            (fun b => b.optionId == oid)) x = x := by
        refine applyHits_miss _ _ _ ?_
        intro w hw he
        have hwx : w = x := hinj (hWsub.subset hw) hx he
        subst hwx
        rcases List.mem_filter.mp hw with ⟨_, hwo⟩
        simp at hwo
        exact ho hwo
      rw [hWmiss]
      have hL : applyHits
          (fun _ bb => { bb with status := BetStatus.LOST })
          ((st.bets.filter (fun b => b.predictionId == pid)).filter
            (fun b => !(b.optionId == oid))) x =
          { x with status := BetStatus.LOST } :=
        applyHits_hit
          (fun _ bb => { bb with status := BetStatus.LOST })
          (fun w y => rfl) _ x
          (hn.sublist (hLsub.map Bet.id)) hxL
          (fun w hw he => hinj (hLsub.subset hw) hx he)
      rw [hL]
      simp [resolveBetMap, hp, ho]
  · have hWmiss : applyHits
        (fun w bb =>
          { bb with
              status := BetStatus.WON,
              payout := payoutOf w.amount pred.totalPool opt.totalCoins })
        ((st.bets.filter (fun b => b.predictionId == pid)).filter
          (fun b => b.optionId == oid)) x = x := by
      refine applyHits_miss _ _ _ ?_
      intro w hw he
      have hwx : w = x := hinj (hWsub.subset hw) hx he
      subst hwx
      rcases List.mem_filter.mp hw with ⟨hw1, _⟩
      rcases List.mem_filter.mp hw1 with ⟨_, hwp⟩
      simp at hwp
      exact hp hwp
    rw [hWmiss]
    have hLmiss : applyHits
        (fun _ bb => { bb with status := BetStatus.LOST })
        ((st.bets.filter (fun b => b.predictionId == pid)).filter
          (fun b => !(b.optionId == oid))) x = x := by
      refine applyHits_miss _ _ _ ?_
      intro w hw he
      have hwx : w = x := hinj (hLsub.subset hw) hx he
      subst hwx
      rcases List.mem_filter.mp hw with ⟨hw1, _⟩
      rcases List.mem_filter.mp hw1 with ⟨_, hwp⟩
      simp at hwp
      exact hp hwp
    rw [hLmiss]
    simp [resolveBetMap, hp]

end Predis

namespace Predis

theorem payoutOf_eq_floor (amount pool coins : Nat) :
    payoutOf amount pool coins =
      ⌊(amount : ℚ) * ((pool : ℚ) / (coins : ℚ))⌋₊ := by
  rw [payoutOf, mul_div_assoc']
  rw [show ((amount : ℚ) * pool) = ((amount * pool : ℕ) : ℚ) by push_cast; ring]
  rw [Nat.floor_div_eq_div]

theorem creatorRewardOf_eq_floor (pool : Nat) :
    creatorRewardOf pool = ⌊(pool : ℚ) * ((5 : ℚ) / (100 : ℚ))⌋₊ := by
  rw [creatorRewardOf, mul_div_assoc']
  rw [show ((pool : ℚ) * 5) = ((pool * 5 : ℕ) : ℚ) by push_cast; ring]
  rw [show ((100 : ℚ)) = ((100 : ℕ) : ℚ) by norm_num]
  rw [Nat.floor_div_eq_div]

theorem sum_mul_div_le (pool coins : Nat) :
    ∀ l : List Nat,
      (l.map (fun a => a * pool / coins)).sum ≤ l.sum * pool / coins
  | [] => by simp
  | a :: l => by
      simp only [List.map_cons, List.sum_cons]
      calc
        a * pool / coins + (l.map (fun a => a * pool / coins)).sum ≤
            a * pool / coins + l.sum * pool / coins :=
          Nat.add_le_add_left (sum_mul_div_le pool coins l) _
        _ ≤ (a * pool + l.sum * pool) / coins := Nat.add_div_le_add_div _ _ _
        _ = (a + l.sum) * pool / coins := by rw [add_mul]

theorem sum_payout_le_pool (pool coins : Nat) (l : List Bet)
    (h : (l.map Bet.amount).sum ≤ coins) :
    (l.map (fun b => payoutOf b.amount pool coins)).sum ≤ pool := by
  have h1 :
      (l.map (fun b => payoutOf b.amount pool coins)).sum ≤
        (l.map Bet.amount).sum * pool / coins := by
    have h0 := sum_mul_div_le pool coins (l.map Bet.amount)
    rw [List.map_map] at h0
    exact h0
  refine h1.trans ?_
  refine (Nat.div_le_div_right (Nat.mul_le_mul_right pool h)).trans ?_
  rcases Nat.eq_zero_or_pos coins with hc | hc
  · simp [hc]
  · rw [Nat.mul_div_cancel_left pool hc]

theorem mem_updateWhere {α : Type} {cond : α → Bool} {f : α → α}
    {l : List α} {x : α} (hx : x ∈ updateWhere cond f l) :
    ∃ y ∈ l, x = if cond y then f y else y := by
  rcases List.mem_map.mp hx with ⟨y, hy, rfl⟩
  exact ⟨y, hy, rfl⟩

theorem updateWhere_nonneg (cond : User → Bool) (f : User → User)
    (hf : ∀ u, 0 ≤ u.coinBalance → 0 ≤ (f u).coinBalance)
    (l : List User) (h : ∀ u ∈ l, 0 ≤ u.coinBalance) :
    ∀ u ∈ updateWhere cond f l, 0 ≤ u.coinBalance := by
  intro u hu
  rcases mem_updateWhere hu with ⟨v, hv, rfl⟩
  by_cases hc : cond v
  · simpa [hc] using hf v (h v hv)
  · simpa [hc] using h v hv

end Predis

namespace Predis

theorem placeBet_ok_elim {st : St} {uid pid oid amt : Nat} {s : St}
    (h : placeBet st uid pid oid amt = .ok s) :
    ∃ user pred opt,
      st.users.find? (fun u => u.id == uid) = some user ∧
      st.predictions.find? (fun p => p.id == pid) = some pred ∧
      st.options.find? (fun o => o.id == oid && o.predictionId == pid) =
        some opt ∧
      ¬ user.coinBalance < (amt : Int) ∧ pred.status = .ACTIVE ∧ amt ≠ 0 ∧
      s =
        { st with
          users :=
            updateWhere (fun u => u.id == uid)
              (fun u =>
                { u with
                  coinBalance := u.coinBalance - (amt : Int)
                  totalBets := u.totalBets + 1 }) st.users
          bets :=
            st.bets ++
              [{ id := st.nextBetId, userId := uid, predictionId := pid,
                 optionId := oid, amount := amt,
                 oddsAtBet := opt.currentOdds }]
          predictions :=
            updateWhere (fun p => p.id == pid)
              (fun p =>
                { p with
                  totalPool := p.totalPool + amt
                  totalBets := p.totalBets + 1 }) st.predictions
          options :=
            (updateWhere (fun o => o.id == oid)
                  (fun o =>
                    { o with
                      totalCoins := o.totalCoins + amt
                      totalBets := o.totalBets + 1 }) st.options).map
              (fun o =>
                if o.predictionId == pid then
                  { o with
                    currentOdds :=
                      calculateOdds (pred.totalPool + amt) o.totalCoins }
                else o)
          transactions :=
            st.transactions ++
              [{ userId := uid, type := .BET_PLACED, amount := -(amt : Int),
                 balanceBefore := some user.coinBalance,
                 balanceAfter := some (user.coinBalance - (amt : Int)),
                 betId := some st.nextBetId }]
          nextBetId := st.nextBetId + 1 } := by
  simp only [placeBet] at h
  split at h
  · cases h
  next user hu =>
    split at h
    · cases h
    next pred hp =>
      split at h
      · cases h
      next opt ho =>
        split at h
        · cases h
        next hbal =>
          split at h
          · cases h
          next hact =>
            split at h
            · cases h
            next hz =>
              cases h
              exact ⟨user, pred, opt, hu, hp, ho, hbal, not_not.mp hact, hz,
                rfl⟩

end Predis

namespace Predis

theorem resolve_ok_elim {st : St} {pid oid : Nat} {s : St}
    (h : resolve st pid oid = .ok s) :
    ∃ pred opt, st.predictions.find? (fun p => p.id == pid) = some pred ∧
      st.options.find? (fun o => o.id == oid) = some opt ∧
      s = resolveBody st pid oid pred opt := by
  simp only [resolve] at h
  split at h
  · cases h
  next pred hp =>
    split at h
    · cases h
    next opt ho =>
      cases h
      exact ⟨pred, opt, hp, ho, rfl⟩

theorem cancel_ok_elim {st : St} {pid : Nat} {s : St}
    (h : cancel st pid = .ok s) :
    ∃ pred, st.predictions.find? (fun p => p.id == pid) = some pred ∧
      s = cancelBody st pid := by
  simp only [cancel] at h
  split at h
  · cases h
  next pred hp =>
    cases h
    exact ⟨pred, hp, rfl⟩

theorem cancelBody_options (st : St) (pid : Nat) :
    (cancelBody st pid).options = st.options := by
  simp only [cancelBody]
  refine foldl_preserves (P := fun s : St => s.options = st.options) ?_ _ _ rfl
  intro acc w h
  exact h

theorem cancelBody_predictions (st : St) (pid : Nat) :
    (cancelBody st pid).predictions =
      updateWhere (fun p => p.id == pid)
        (fun p => { p with status := .CANCELLED }) st.predictions := by
  simp only [cancelBody]
  have h1 : (List.foldl
      (fun (acc : St) (b : Bet) =>
        { acc with
          users :=
            updateWhere (fun u => u.id == b.userId)
              (fun u =>
                { u with coinBalance := u.coinBalance + (b.amount : Int) })
              acc.users
          bets :=
            updateWhere (fun bb => bb.id == b.id)
              (fun bb => { bb with status := BetStatus.REFUNDED }) acc.bets
          transactions :=
            acc.transactions ++
              [{ userId := b.userId, type := TransactionType.BET_REFUNDED,
                 amount := (b.amount : Int), betId := some b.id }] })
      st (List.filter (fun b => b.predictionId == pid) st.bets)).predictions =
      st.predictions := by
    refine foldl_preserves
      (P := fun s : St => s.predictions = st.predictions) ?_ _ _ rfl
    intro acc w h
    exact h
  exact congrArg (updateWhere _ _) h1

theorem cancelBody_users_nonneg (st : St) (pid : Nat)
    (h : ∀ u ∈ st.users, 0 ≤ u.coinBalance) :
    ∀ u ∈ (cancelBody st pid).users, 0 ≤ u.coinBalance := by
  simp only [cancelBody]
  refine foldl_preserves
    (P := fun s : St => ∀ u ∈ s.users, 0 ≤ u.coinBalance) ?_ _ _ h
  intro acc w hP
  refine updateWhere_nonneg _ _ ?_ _ hP
  intro u hu
  exact add_nonneg hu (Int.natCast_nonneg _)

theorem cancelBody_users_ids (st : St) (pid : Nat) :
    (cancelBody st pid).users.map User.id = st.users.map User.id := by
  simp only [cancelBody]
  refine foldl_preserves
    (P := fun s : St => s.users.map User.id = st.users.map User.id) ?_ _ _ rfl
  intro acc w hP
  have h2 : (updateWhere (fun u => u.id == w.userId)
      (fun u => { u with coinBalance := u.coinBalance + (w.amount : Int) })
      acc.users).map User.id = acc.users.map User.id :=
    by
      refine updateWhere_map_proj _ _ User.id ?_ _
      intro u
      rfl
  exact h2.trans hP

theorem resolveBody_users_nonneg (st : St) (pid oid : Nat) (pred : Prediction)
    (opt : PredictionOption) (h : ∀ u ∈ st.users, 0 ≤ u.coinBalance) :
    ∀ u ∈ (resolveBody st pid oid pred opt).users, 0 ≤ u.coinBalance := by
  simp only [resolveBody]
  refine updateWhere_nonneg _ _ ?_ _ ?_
  · intro u hu
    exact add_nonneg hu (Int.natCast_nonneg _)
  refine foldl_preserves
    (P := fun s : St => ∀ u ∈ s.users, 0 ≤ u.coinBalance) ?_ _ _ ?_
  · intro acc w hP
    refine updateWhere_nonneg _ _ ?_ _ hP
    intro u hu
    exact hu
  refine foldl_preserves
    (P := fun s : St => ∀ u ∈ s.users, 0 ≤ u.coinBalance) ?_ _ _ h
  intro acc w hP
  refine updateWhere_nonneg _ _ ?_ _ hP
  intro u hu
  exact add_nonneg hu (Int.natCast_nonneg _)

theorem resolveBody_users_ids (st : St) (pid oid : Nat) (pred : Prediction)
    (opt : PredictionOption) :
    (resolveBody st pid oid pred opt).users.map User.id =
      st.users.map User.id := by
  simp only [resolveBody]
  have hfin : ∀ l : List User,
      (updateWhere (fun u => u.id == pred.creatorId)
        (fun u =>
          { u with
            coinBalance :=
              u.coinBalance + (creatorRewardOf pred.totalPool : Int) })
        l).map User.id = l.map User.id :=
    by
      intro l
      refine updateWhere_map_proj _ _ User.id ?_ l
      intro u
      rfl
  refine (hfin _).trans ?_
  refine foldl_preserves
    (P := fun s : St => s.users.map User.id = st.users.map User.id) ?_ _ _ ?_
  · intro acc w hP
    have h2 : (updateWhere (fun u => u.id == w.userId)
        (fun u => { u with totalLosses := u.totalLosses + 1 })
        acc.users).map User.id = acc.users.map User.id :=
      by
      refine updateWhere_map_proj _ _ User.id ?_ _
      intro u
      rfl
    exact h2.trans hP
  refine foldl_preserves
    (P := fun s : St => s.users.map User.id = st.users.map User.id) ?_ _ _ rfl
  intro acc w hP
  have h2 : (updateWhere (fun u => u.id == w.userId)
      (fun u =>
        { u with
          coinBalance :=
            u.coinBalance +
              (payoutOf w.amount pred.totalPool opt.totalCoins : Int)
          totalWins := u.totalWins + 1 })
      acc.users).map User.id = acc.users.map User.id :=
    by
      refine updateWhere_map_proj _ _ User.id ?_ _
      intro u
      rfl
  exact h2.trans hP

end Predis

namespace Predis

theorem step_users_ids (st : St) (op : Op) :
    (step st op).users.map User.id = st.users.map User.id := by
  cases op with
  | place u p o a =>
    simp only [step]
    split
    next s hs =>
      rcases placeBet_ok_elim hs with ⟨user, pred, opt, _, _, _, _, _, _, rfl⟩
      refine updateWhere_map_proj _ _ User.id ?_ _
      intro x
      rfl
    next => rfl
  | resolveMarket p o =>
    simp only [step]
    split
    next s hs =>
      rcases resolve_ok_elim hs with ⟨pred, opt, _, _, rfl⟩
      exact resolveBody_users_ids st p o pred opt
    next => rfl
  | cancelMarket p =>
    simp only [step]
    split
    next s hs =>
      rcases cancel_ok_elim hs with ⟨pred, _, rfl⟩
      exact cancelBody_users_ids st p
    next => rfl

theorem step_balancesNonneg (st : St) (op : Op)
    (hn : (st.users.map User.id).Nodup) (h : balancesNonneg st) :
    balancesNonneg (step st op) := by
  cases op with
  | place u p o a =>
    simp only [step]
    split
    next s hs =>
      rcases placeBet_ok_elim hs with
        ⟨user, pred, opt, hu, _, _, hbal, _, _, rfl⟩
      intro x hx
      rcases mem_updateWhere hx with ⟨y, hy, rfl⟩
      by_cases hc : (y.id == u)
      · have hy2 : y = user :=
          find_eq_of_mem User.id u hn hu hy (by simpa using hc)
        subst hy2
        simp only [hc, if_pos]
        have hle : (a : Int) ≤ y.coinBalance := Int.not_lt.mp hbal
        simpa using sub_nonneg.mpr hle
      · simp only [hc, if_neg, Bool.false_eq_true, not_false_iff, ite_false]
        exact h y hy
    next => exact h
  | resolveMarket p o =>
    simp only [step]
    split
    next s hs =>
      rcases resolve_ok_elim hs with ⟨pred, opt, _, _, rfl⟩
      exact resolveBody_users_nonneg st p o pred opt h
    next => exact h
  | cancelMarket p =>
    simp only [step]
    split
    next s hs =>
      rcases cancel_ok_elim hs with ⟨pred, _, rfl⟩
      exact cancelBody_users_nonneg st p h
    next => exact h

theorem run_balancesNonneg :
    ∀ (ops : List Op) (st : St), (st.users.map User.id).Nodup →
      balancesNonneg st → balancesNonneg (run st ops)
  | [], _, _, h => h
  | op :: ops, st, hn, h =>
      run_balancesNonneg ops (step st op)
        (by rw [step_users_ids]; exact hn) (step_balancesNonneg st op hn h)

end Predis

namespace Predis

theorem updateWhere_cons {α : Type} (cond : α → Bool) (f : α → α) (x : α)
    (l : List α) :
    updateWhere cond f (x :: l) =
      (if cond x then f x else x) :: updateWhere cond f l := rfl

theorem poolOf_cons (pid : Nat) (o : PredictionOption)
    (l : List PredictionOption) :
    poolOf pid (o :: l) =
      (if o.predictionId == pid then o.totalCoins else 0) + poolOf pid l := by
  simp only [poolOf, List.filter_cons]
  by_cases hc : (o.predictionId == pid) <;> simp [hc]

theorem poolOf_map_eq (pid : Nat) (g : PredictionOption → PredictionOption)
    (h1 : ∀ o, (g o).predictionId = o.predictionId)
    (h2 : ∀ o, (g o).totalCoins = o.totalCoins) :
    ∀ l : List PredictionOption, poolOf pid (l.map g) = poolOf pid l
  | [] => rfl
  | o :: l => by
      rw [List.map_cons, poolOf_cons, poolOf_cons, h1 o, h2 o,
        poolOf_map_eq pid g h1 h2 l]

theorem poolOf_bump (oid amt : Nat) :
    ∀ (l : List PredictionOption), (l.map PredictionOption.id).Nodup →
      ∀ o0, o0 ∈ l → o0.id = oid → ∀ pid,
        poolOf pid (updateWhere (fun o => o.id == oid)
          (fun o =>
            { o with
              totalCoins := o.totalCoins + amt
              totalBets := o.totalBets + 1 }) l) =
          poolOf pid l + (if o0.predictionId = pid then amt else 0)
  | [], _, o0, ho, _, _ => absurd ho (List.not_mem_nil o0)
  | o :: l, hn, o0, ho, hid, pid => by
      simp only [List.map_cons, List.nodup_cons] at hn
      rcases List.mem_cons.mp ho with rfl | hmem
      · have hcond : (o0.id == oid) = true := by simpa using hid
        have hnone : ∀ x ∈ l, (x.id == oid) = false := by
          intro x hx
          simp only [beq_eq_false_iff_ne, ne_eq]
          intro he
          exact hn.1 (List.mem_map.mpr ⟨x, hx, he.trans hid.symm⟩)
        rw [updateWhere_cons, updateWhere_eq_self _ _ l hnone, if_pos hcond,
          poolOf_cons, poolOf_cons]
        by_cases hpp : (o0.predictionId == pid)
        · have hpp2 : o0.predictionId = pid := by simpa using hpp
          simp [hpp2]
          try omega
        · have hpp2 : ¬ o0.predictionId = pid := by simpa using hpp
          simp [hpp2]
          try omega
      · have hhead : (o.id == oid) = false := by
          simp only [beq_eq_false_iff_ne, ne_eq]
          intro he
          exact hn.1 (List.mem_map.mpr ⟨o0, hmem, hid.trans he.symm⟩)
        rw [updateWhere_cons, if_neg (by simp [hhead]), poolOf_cons,
          poolOf_cons, poolOf_bump oid amt l hn.2 o0 hmem hid pid]
        omega

theorem step_options_ids (st : St) (op : Op) :
    (step st op).options.map PredictionOption.id =
      st.options.map PredictionOption.id := by
  cases op with
  | place u p o a =>
    simp only [step]
    split
    next s hs =>
      rcases placeBet_ok_elim hs with ⟨user, pred, opt, _, _, _, _, _, _, rfl⟩
      show ((updateWhere (fun x => x.id == o)
          (fun x =>
            { x with
              totalCoins := x.totalCoins + a
              totalBets := x.totalBets + 1 }) st.options).map
        (fun x =>
          if x.predictionId == p then
            { x with
              currentOdds := calculateOdds (pred.totalPool + a) x.totalCoins }
          else x)).map PredictionOption.id =
        st.options.map PredictionOption.id
      rw [List.map_map]
      rw [List.map_congr_left
        (f := PredictionOption.id ∘
          (fun x =>
            if x.predictionId == p then
              { x with
                currentOdds := calculateOdds (pred.totalPool + a) x.totalCoins }
            else x))
        (g := PredictionOption.id) ?_]
      · refine updateWhere_map_proj _ _ PredictionOption.id ?_ _
        intro x
        rfl
      · intro x _
        by_cases hc : (x.predictionId == p) <;> simp [Function.comp, hc]
    next => rfl
  | resolveMarket p o =>
    simp only [step]
    split
    next s hs =>
      rcases resolve_ok_elim hs with ⟨pred, opt, _, _, rfl⟩
      rw [resolveBody_options]
    next => rfl
  | cancelMarket p =>
    simp only [step]
    split
    next s hs =>
      rcases cancel_ok_elim hs with ⟨pred, _, rfl⟩
      rw [cancelBody_options]
    next => rfl

end Predis

namespace Predis

theorem step_poolConsistent (st : St) (op : Op)
    (hop : (st.options.map PredictionOption.id).Nodup)
    (h : poolConsistent st) : poolConsistent (step st op) := by
  cases op with
  | place u p o a =>
    simp only [step]
    split
    next s hs =>
      rcases placeBet_ok_elim hs with
        ⟨user, pred, opt, hu, hp, ho, _, _, _, rfl⟩
      have hoptmem : opt ∈ st.options := List.mem_of_find?_eq_some ho
      have hoid : opt.id = o ∧ opt.predictionId = p := by
        have h2 := List.find?_some ho
        simp only [Bool.and_eq_true, beq_iff_eq] at h2
        exact h2
      intro p' hp'
      rcases mem_updateWhere hp' with ⟨q, hq, rfl⟩
      have hg1 : ∀ x : PredictionOption,
          ((fun x : PredictionOption =>
            if x.predictionId == p then
              { x with
                currentOdds := calculateOdds (pred.totalPool + a) x.totalCoins }
            else x) x).predictionId = x.predictionId := by
        intro x
        by_cases hc : (x.predictionId == p) <;> simp [hc]
      have hg2 : ∀ x : PredictionOption,
          ((fun x : PredictionOption =>
            if x.predictionId == p then
              { x with
                currentOdds := calculateOdds (pred.totalPool + a) x.totalCoins }
            else x) x).totalCoins = x.totalCoins := by
        intro x
        by_cases hc : (x.predictionId == p) <;> simp [hc]
      have hmap : ∀ pid2 : Nat,
          poolOf pid2 ((updateWhere (fun x => x.id == o)
            (fun x =>
              { x with
                totalCoins := x.totalCoins + a
                totalBets := x.totalBets + 1 }) st.options).map
            (fun x =>
              if x.predictionId == p then
                { x with
                  currentOdds :=
                    calculateOdds (pred.totalPool + a) x.totalCoins }
              else x)) =
          poolOf pid2 st.options +
            (if opt.predictionId = pid2 then a else 0) := by
        intro pid2
        rw [poolOf_map_eq pid2 _ hg1 hg2,
          poolOf_bump o a st.options hop opt hoptmem hoid.1 pid2]
      by_cases cq : (q.id == p)
      · have cq2 : q.id = p := by simpa using cq
        rw [if_pos cq]
        show poolOf q.id _ = q.totalPool + a
        rw [hmap q.id, h q hq, if_pos (hoid.2.trans cq2.symm)]
      · rw [if_neg cq]
        rw [hmap q.id,
          if_neg (fun e => cq (by simp [e.symm.trans hoid.2]))]
        rw [Nat.add_zero, h q hq]
    next => exact h
  | resolveMarket p o =>
    simp only [step]
    split
    next s hs =>
      rcases resolve_ok_elim hs with ⟨pred, opt, _, _, rfl⟩
      intro p' hp'
      rw [resolveBody_options]
      rw [resolveBody_predictions] at hp'
      rcases mem_updateWhere hp' with ⟨q, hq, rfl⟩
      by_cases cq : (q.id == p)
      · rw [if_pos cq]
        show poolOf q.id st.options = q.totalPool
        exact h q hq
      · rw [if_neg cq]
        exact h q hq
    next => exact h
  | cancelMarket p =>
    simp only [step]
    split
    next s hs =>
      rcases cancel_ok_elim hs with ⟨pred, _, rfl⟩
      intro p' hp'
      rw [cancelBody_options]
      rw [cancelBody_predictions] at hp'
      rcases mem_updateWhere hp' with ⟨q, hq, rfl⟩
      by_cases cq : (q.id == p)
      · rw [if_pos cq]
        show poolOf q.id st.options = q.totalPool
        exact h q hq
      · rw [if_neg cq]
        exact h q hq
    next => exact h

theorem run_poolConsistent :
    ∀ (ops : List Op) (st : St),
      (st.options.map PredictionOption.id).Nodup →
      poolConsistent st → poolConsistent (run st ops)
  | [], _, _, h => h
  | op :: ops, st, hn, h =>
      run_poolConsistent ops (step st op)
        (by rw [step_options_ids]; exact hn) (step_poolConsistent st op hn h)

end Predis

namespace Predis

/-- C1: for every market resolved with correct option `opt`, every winning
wager `b` (one whose `optionId` equals the correct option) is assigned
`payout = floor(b.amount * pool / opt.totalCoins)`, computed from the final
pool and winning-option totals at resolution time; `b` ranges over bets with
an arbitrary `oddsAtBet`, and the payout expression does not mention it, so
the odds recorded at placement play no role in the payout. -/
theorem resolve_winner_payout_formula (st : St) (pid oid : Nat)
    (pred : Prediction) (opt : PredictionOption) {s : St}
    (hn : (st.bets.map Bet.id).Nodup)
    (hp : st.predictions.find? (fun p => p.id == pid) = some pred)
    (ho : st.options.find? (fun o => o.id == oid) = some opt)
    (hres : resolve st pid oid = .ok s)
    (b : Bet) (hb : b ∈ st.bets) (hbp : b.predictionId = pid)
    (hbo : b.optionId = oid) :
    { b with
        status := BetStatus.WON
        payout := b.amount * pred.totalPool / opt.totalCoins } ∈ s.bets ∧
      b.amount * pred.totalPool / opt.totalCoins =
        ⌊(b.amount : ℚ) * ((pred.totalPool : ℚ) / (opt.totalCoins : ℚ))⌋₊ := by
  rcases resolve_ok_elim hres with ⟨pred2, opt2, hp2, ho2, rfl⟩
  rw [hp] at hp2
  rw [ho] at ho2
  have e1 : pred = pred2 := Option.some.inj hp2
  have e2 : opt = opt2 := Option.some.inj ho2
  subst e1
  subst e2
  constructor
  · rw [resolveBody_bets st pid oid pred opt hn]
    refine List.mem_map.mpr ⟨b, hb, ?_⟩
    simp [resolveBetMap, hbp, hbo, payoutOf]
  · rw [← payoutOf_eq_floor]
    rfl

/-- Witness for C1 on the concrete market `demoSt`. -/
theorem resolve_winner_payout_formula_witness :
    ({ id := 1, userId := 1, predictionId := 1, optionId := 1, amount := 100,
       oddsAtBet := 1, status := BetStatus.WON,
       payout := 100 * 100 / 100 } : Bet) ∈ demoR1.bets ∧
      100 * 100 / 100 =
        ⌊(100 : ℚ) * ((100 : ℚ) / (100 : ℚ))⌋₊ :=
  resolve_winner_payout_formula demoSt 1 1 _ _ (by decide) rfl rfl rfl
    _ (List.Mem.head _) rfl rfl

end Predis

namespace Predis

/-- C2: for every resolved market, the sum of `payout` over all winning
wagers is at most the market's pool, provided the winning option's
`totalCoins` dominates the amounts wagered on it (the maintained
consistency of option totals).  Each payout is truncated toward zero, so no
resolution distributes more to winners than the pool. -/
theorem resolve_payout_bound (st : St) (pid oid : Nat)
    (pred : Prediction) (opt : PredictionOption) {s : St}
    (hn : (st.bets.map Bet.id).Nodup)
    (hp : st.predictions.find? (fun p => p.id == pid) = some pred)
    (ho : st.options.find? (fun o => o.id == oid) = some opt)
    (hcons :
      ((st.bets.filter (fun b => b.optionId == oid)).map Bet.amount).sum ≤
        opt.totalCoins)
    (hres : resolve st pid oid = .ok s) :
    ((s.bets.filter
        (fun b => b.predictionId == pid && b.optionId == oid)).map
      Bet.payout).sum ≤ pred.totalPool := by
  rcases resolve_ok_elim hres with ⟨pred2, opt2, hp2, ho2, rfl⟩
  rw [hp] at hp2
  rw [ho] at ho2
  have e1 : pred = pred2 := Option.some.inj hp2
  have e2 : opt = opt2 := Option.some.inj ho2
  subst e1
  subst e2
  rw [resolveBody_bets st pid oid pred opt hn]
  rw [List.filter_map, List.map_map]
  have hfc : st.bets.filter
      ((fun b => b.predictionId == pid && b.optionId == oid) ∘
        resolveBetMap pid oid pred.totalPool opt.totalCoins) =
      st.bets.filter (fun b => b.predictionId == pid && b.optionId == oid) := by
    refine List.filter_congr ?_
    intro b _
    simp only [Function.comp]
    by_cases hbp : b.predictionId = pid
    · by_cases hbo : b.optionId = oid
      · simp [resolveBetMap, hbp, hbo]
      · simp [resolveBetMap, hbp, hbo]
    · simp [resolveBetMap, hbp]
  rw [hfc]
  have hmc :
      ((st.bets.filter
          (fun b => b.predictionId == pid && b.optionId == oid)).map
        (Bet.payout ∘ resolveBetMap pid oid pred.totalPool opt.totalCoins)) =
      ((st.bets.filter
          (fun b => b.predictionId == pid && b.optionId == oid)).map
        (fun b => payoutOf b.amount pred.totalPool opt.totalCoins)) := by
    refine List.map_congr_left ?_
    intro b hb
    rcases List.mem_filter.mp hb with ⟨_, hcond⟩
    simp only [Bool.and_eq_true, beq_iff_eq] at hcond
    rcases hcond with ⟨hbp, hbo⟩
    simp only [Function.comp]
    simp [resolveBetMap, hbp, hbo]
  rw [hmc]
  refine sum_payout_le_pool pred.totalPool opt.totalCoins _ ?_
  have hsub : List.Sublist
      (st.bets.filter (fun b => b.predictionId == pid && b.optionId == oid))
      (st.bets.filter (fun b => b.optionId == oid)) := by
    refine List.monotone_filter_right st.bets ?_
    intro b hb
    simp only [Bool.and_eq_true] at hb
    exact hb.2
  refine le_trans ?_ hcons
  exact List.Sublist.sum_le_sum (hsub.map Bet.amount) (fun a _ => Nat.zero_le a)

/-- Witness for C2 on the concrete market `demoSt`. -/
theorem resolve_payout_bound_witness :
    ((demoR1.bets.filter
        (fun b => b.predictionId == 1 && b.optionId == 1)).map
      Bet.payout).sum ≤ 100 :=
  resolve_payout_bound demoSt 1 1 _ _ (by decide) rfl rfl (by decide) rfl

end Predis

namespace Predis

/-- C3 fails on the code: the resolve flow credits the creator
`floor(totalPool * 0.05)` on top of the full winner payouts, not out of the
rounding dust.  On `demoSt` (pool `100`, one winning wager of `100`) total
balances rise from `0` to `105`, i.e. `105` coins are credited against a
pool of `100`. -/
theorem resolve_credits_exceed_pool :
    (demoSt.users.map User.coinBalance).sum = 0 ∧
      (demoSt.predictions.map Prediction.totalPool) = [100] ∧
      resolve demoSt 1 1 = .ok demoR1 ∧
      (demoR1.users.map User.coinBalance).sum = 105 ∧
      100 < 105 := by
  refine ⟨rfl, rfl, by decide, by decide, by decide⟩

/-- C4 fails on the code: the resolve transaction updates the status with no
guard on the previous status, so a second `resolve` on an already-`RESOLVED`
market succeeds (there is no `AlreadyResolved` error in the flow) and pays
every winner again: user `1` goes from `100` to `200` coins and the creator
from `5` to `10`. -/
theorem resolve_not_idempotent :
    demoR1.predictions.map Prediction.status = [PredictionStatus.RESOLVED] ∧
      resolve demoR1 1 1 = .ok demoR2 ∧
      demoR1.users.map User.coinBalance = [100, 5] ∧
      demoR2.users.map User.coinBalance = [200, 10] := by
  refine ⟨by decide, by decide, by decide, by decide⟩

/-- C5: when the account's balance is below the wager amount, `placeBet`
fails with `InsufficientFunds` and the step leaves the state untouched. -/
theorem placeBet_insufficient_funds (st : St) (uid pid oid amt : Nat)
    (user : User) (hu : st.users.find? (fun u => u.id == uid) = some user)
    (hp : (st.predictions.find? (fun p => p.id == pid)).isSome)
    (ho : (st.options.find?
      (fun o => o.id == oid && o.predictionId == pid)).isSome)
    (hlt : user.coinBalance < (amt : Int)) :
    placeBet st uid pid oid amt = .error .InsufficientFunds ∧
      step st (.place uid pid oid amt) = st := by
  have hpb : placeBet st uid pid oid amt = .error .InsufficientFunds := by
    rcases Option.isSome_iff_exists.mp hp with ⟨pred, hpe⟩
    rcases Option.isSome_iff_exists.mp ho with ⟨opt, hoe⟩
    simp only [placeBet, hu, hpe, hoe]
    rw [if_pos hlt]
  refine ⟨hpb, ?_⟩
  simp only [step, hpb]

/-- Witness for C5: balance `500`, wager attempt of `600`. -/
theorem placeBet_insufficient_funds_witness :
    placeBet demoActive 1 1 1 600 = .error .InsufficientFunds ∧
      step demoActive (.place 1 1 1 600) = demoActive :=
  placeBet_insufficient_funds demoActive 1 1 1 600
    ({ id := 1, coinBalance := 500 } : User) rfl rfl rfl (by decide)

/-- C6: starting from any state with distinct account ids and non-negative
balances, every sequence of `placeBet`, `resolve` and `cancel` operations
keeps every account balance non-negative. -/
theorem balances_never_negative (st : St) (ops : List Op)
    (hn : (st.users.map User.id).Nodup) (h : balancesNonneg st) :
    balancesNonneg (run st ops) :=
  run_balancesNonneg ops st hn h

/-- Witness for C6 on a concrete operation sequence. -/
theorem balances_never_negative_witness :
    balancesNonneg
      (run demoWithCreator
        [.place 1 1 1 100, .resolveMarket 1 1, .cancelMarket 1]) :=
  balances_never_negative demoWithCreator
    [.place 1 1 1 100, .resolveMarket 1 1, .cancelMarket 1]
    (by decide) (by unfold balancesNonneg; decide)

/-- C7: the odds function is pure and total: `odds = pool / coinsOnOption`
when `coinsOnOption > 0`, and the defined floor `1.0` when
`coinsOnOption = 0`. -/
theorem calculateOdds_spec (pool coins : Nat) :
    (0 < coins → calculateOdds pool coins = (pool : ℚ) / (coins : ℚ)) ∧
      (coins = 0 → calculateOdds pool coins = 1) := by
  constructor
  · intro h
    simp [calculateOdds, h]
  · intro h
    simp [calculateOdds, h]

/-- Witness for C7 at the unit tests's inputs. -/
theorem calculateOdds_spec_witness :
    calculateOdds 1000 300 = (1000 : ℚ) / (300 : ℚ) ∧
      calculateOdds 0 0 = 1 :=
  ⟨(calculateOdds_spec 1000 300).1 (by decide),
    (calculateOdds_spec 0 0).2 rfl⟩

/-- C8: starting from any state with distinct option ids whose option totals
sum to each market's pool, every operation (in particular every committed
wager, which bumps the option total and the pool by the same amount in one
atomic unit) preserves the pool-consistency predicate. -/
theorem pool_consistency_preserved (st : St) (ops : List Op)
    (hn : (st.options.map PredictionOption.id).Nodup)
    (h : poolConsistent st) : poolConsistent (run st ops) :=
  run_poolConsistent ops st hn h

/-- Witness for C8: a committed wager on a fresh market. -/
theorem pool_consistency_preserved_witness :
    poolConsistent (run demoWithCreator [.place 1 1 1 100]) :=
  pool_consistency_preserved demoWithCreator [.place 1 1 1 100]
    (by decide) (by unfold poolConsistent; decide)

/-- C9 fails on the code: after a wager (balance `500`, amount `100`) and a
resolution, the `BET_PLACED` entry does satisfy
`balanceAfter = balanceBefore + amount`, but the `BET_WON` entry written by
the resolve flow carries no `balanceBefore`/`balanceAfter` at all, and the
creator's balance rises from `50` to `55` with no ledger entry for that
account, so replaying entries cannot reproduce the balance. -/
theorem ledger_entries_incomplete :
    demoFlow.transactions =
      [{ userId := 1, type := .BET_PLACED, amount := -100,
         balanceBefore := some 500, balanceAfter := some 400,
         betId := some 1 },
       { userId := 1, type := .BET_WON, amount := 100,
         balanceBefore := none, balanceAfter := none, betId := some 1 }] ∧
      (demoFlow.users.find? (fun u => u.id == 2)).map User.coinBalance =
        some 55 ∧
      demoFlow.transactions.filter (fun t => t.userId == 2) = [] := by
  refine ⟨by decide, by decide, by decide⟩

/-- C10: `Transaction.betId` is `@unique`: inserting an entry whose non-null
`betId` already appears on an existing entry is rejected with a unique
violation, and a successful insert preserves the at-most-one-entry-per-bet
invariant. -/
theorem transaction_betId_unique (txns : List Transaction) (t : Transaction)
    (h : atMostOnePerBet txns) :
    (∀ txns2, insertTransaction txns t = .ok txns2 →
        atMostOnePerBet txns2) ∧
      (∀ bid t0, t0 ∈ txns → t0.betId = some bid → t.betId = some bid →
        insertTransaction txns t = .error .UniqueViolation) := by
  constructor
  · intro txns2 hok
    simp only [insertTransaction] at hok
    split at hok
    next hnone =>
      cases hok
      intro bid
      rw [List.filter_append]
      have h1 : ([t].filter (fun t2 => t2.betId == some bid)) = [] := by
        simp [List.filter, hnone]
      rw [h1, List.append_nil]
      exact h bid
    next bid0 hsome =>
      split at hok
      next hall =>
        cases hok
        intro bid
        rw [List.filter_append]
        by_cases hb : bid = bid0
        · subst hb
          have h0 : txns.filter (fun t2 => t2.betId == some bid) = [] := by
            refine List.filter_eq_nil_iff.mpr ?_
            intro t2 ht2
            have h3 := List.all_eq_true.mp hall t2 ht2
            simpa using h3
          rw [h0]
          exact List.length_filter_le _ _
        · have hbb : (bid0 == bid) = false := by
            simp only [beq_eq_false_iff_ne, ne_eq]
            exact fun e => hb e.symm
          have h1 : ([t].filter (fun t2 => t2.betId == some bid)) = [] := by
            simp [List.filter, hsome, hbb]
          rw [h1, List.append_nil]
          exact h bid
      next => cases hok
  · intro bid t0 ht0 hbt0 hbt
    simp only [insertTransaction, hbt]
    have hcond : ¬ (txns.all (fun t2 => !(t2.betId == some bid)) = true) := by
      intro hall
      have h2 := List.all_eq_true.mp hall t0 ht0
      rw [hbt0] at h2
      simp at h2
    rw [if_neg hcond]

/-- Witness for C10: the payout entry for a bet that already has its
placement entry is rejected. -/
theorem transaction_betId_unique_witness :
    insertTransaction [demoTxn1] demoTxn2 = .error .UniqueViolation :=
  (transaction_betId_unique [demoTxn1] demoTxn2
    (fun _ => List.length_filter_le _ _)).2 1 demoTxn1
    (List.Mem.head _) rfl rfl

end Predis
